import Mathlib

/-!
Verification of the zstd streaming decompression bridge and the
archive error wrapper in
`Sources/ContainerizationArchive/CArchive/archive_swift_bridge.c`.

The C function `zstd_decompress_fd(src_fd, dst_fd)` is shallowly embedded as
a fuel-bounded interpreter over an environment describing its external
collaborators: the zstd codec (an abstract state machine), the source
descriptor (a list of read results), the destination descriptor (a write
behavior), and the allocator (success flags for the context and the two
staging buffers).  The interpreter is instrumented: besides the C return
code it records a rich status, a chronological trace of read / decompress /
write events, the bytes durably accepted by the destination, and
allocation/release accounting.  `none` means the fuel ran out (the C loop
did not terminate within the bound); all theorems are about terminating
runs.
-/

set_option maxRecDepth 4000

namespace ArchiveBridge

/-- A byte string (each element conceptually `< 256`; the bridge never
inspects byte values, so no bound is imposed). -/
abbrev Bytes := List Nat

/-- Result of one `read(src_fd, in_buf, in_size)` call: an error (negative
return) or a chunk of bytes; the empty chunk models `read` returning `0`
(end of stream), and an exhausted result list also models end of stream. -/
inductive ReadResult where
  | err : ReadResult
  | chunk : Bytes → ReadResult
deriving Repr, DecidableEq

/-- Outcome of one `ZSTD_decompressStream` call on the remaining input and
an output buffer of the given capacity: error flag, the `size_t` return
value when not an error (`0` = current frame fully decoded and flushed,
positive = more frame data expected), input bytes consumed, output bytes
produced, and the codec's next internal state. -/
structure StepResult (σ : Type) where
  isError : Bool
  hint : Nat
  consumed : Nat
  produced : Bytes
  next : σ
deriving Repr

/-- The external collaborators of `zstd_decompress_fd`: allocator outcomes,
codec recommended buffer sizes, the codec state machine, the source's read
results and the destination's write behavior (`writeRet k n` is the return
value of the `k`-th `write` call when asked to write `n` bytes). -/
structure Env (σ : Type) where
  createOk : Bool
  initError : Bool
  inSize : Nat
  outSize : Nat
  mallocInOk : Bool
  mallocOutOk : Bool
  initState : σ
  step : σ → Bytes → Nat → StepResult σ
  reads : List ReadResult
  writeRet : Nat → Nat → Int

/-- One observable event of a run, in chronological order: a `read` call
returning `n` (−1 stands for any negative return), a `ZSTD_decompressStream`
call recording the input cursor/size and output position/capacity it was
invoked with plus its outcome, or a `write` call with the staged bytes and
the value `write` returned. -/
inductive Event where
  | read (n : Int)
  | step (inPos inLen outPos outCap : Nat) (isError : Bool) (consumed : Nat) (produced : Bytes)
  | write (data : Bytes) (ret : Int)
deriving Repr, DecidableEq

/-- The rich failure taxonomy of the transform (the C boundary collapses all
failures to the single return value `1`). -/
inductive TStatus where
  | success
  | contextCreationFailed
  | initFailed
  | allocationFailed
  | codecError
  | readError
  | shortWrite
deriving Repr, DecidableEq

/-- Allocation/release accounting: how many times the codec context was
created and destroyed, and how many times each staging buffer was
successfully allocated and (non-null pointer) freed. -/
structure Accounting where
  ctxCreated : Nat
  ctxFreed : Nat
  inAlloc : Nat
  inFreed : Nat
  outAlloc : Nat
  outFreed : Nat
deriving Repr, DecidableEq

/-- Result of the inner drain loop on one input chunk: `abort = some s`
means the loop jumped to `done` with `rc = 1` for reason `s`
(codec error or short write); `abort = none` means the chunk's cursor
reached its size.  `st` is the codec state, `pos` the input cursor,
`wIdx` the next write index, `lastHint` the return value of the most
recent successful decompress step (ghost data the C code discards),
`trace` the events of the loop, `dest` the bytes the destination accepted. -/
structure DrainRes (σ : Type) where
  abort : Option TStatus
  st : σ
  pos : Nat
  wIdx : Nat
  lastHint : Nat
  trace : List Event
  dest : Bytes

/-- The inner `while (input.pos < input.size)` loop of `zstd_decompress_fd`:
one `ZSTD_decompressStream` step into a freshly zero-positioned output
buffer of full capacity, then flush any produced output to the destination,
aborting on a codec error or on a write that does not transfer exactly the
staged byte count.  Fuel bounds the iteration count; `none` = fuel ran out. -/
def drainChunk (env : Env σ) : Nat → σ → Bytes → Nat → Nat → Nat → Option (DrainRes σ)
  | 0, _, _, _, _, _ => none
  | fuel+1, st, chunk, pos, wIdx, lastHint =>
    if pos < chunk.length then
      let r := env.step st (chunk.drop pos) env.outSize
      let ev := Event.step pos chunk.length 0 env.outSize r.isError r.consumed r.produced
      if r.isError then
        some ⟨some TStatus.codecError, r.next, pos, wIdx, lastHint, [ev], []⟩
      else if r.produced.length > 0 then
        let w := env.writeRet wIdx r.produced.length
        let ev2 := Event.write r.produced w
        if w ≠ (r.produced.length : Int) then
          some ⟨some TStatus.shortWrite, r.next, pos, wIdx + 1, r.hint, [ev, ev2],
            r.produced.take w.toNat⟩
        else
          match drainChunk env fuel r.next chunk (pos + r.consumed) (wIdx + 1) r.hint with
          | none => none
          | some d => some { d with trace := ev :: ev2 :: d.trace, dest := r.produced ++ d.dest }
      else
        match drainChunk env fuel r.next chunk (pos + r.consumed) wIdx r.hint with
        | none => none
        | some d => some { d with trace := ev :: d.trace }
    else
      some ⟨none, st, pos, wIdx, lastHint, [], []⟩

/-- Result of the outer read loop: final status and C return code, codec
state, ghost last decompress return, events and destination bytes. -/
structure LoopRes (σ : Type) where
  status : TStatus
  rc : Int
  st : σ
  lastHint : Nat
  trace : List Event
  dest : Bytes

/-- The outer `while ((bytes_read = read(...)) > 0)` loop of
`zstd_decompress_fd` together with the final `if (bytes_read < 0) rc = 1`:
a read error sets `rc = 1`, a zero-byte read exits the loop on the success
path, and a positive read of `n` bytes establishes an input chunk of size
`n` with its cursor at 0, drained by `drainChunk` before the next read. -/
def readLoop (env : Env σ) : Nat → σ → Nat → Nat → Nat → Option (LoopRes σ)
  | 0, _, _, _, _ => none
  | fuel+1, st, rIdx, wIdx, lastHint =>
    match env.reads.getD rIdx (ReadResult.chunk []) with
    | ReadResult.err => some ⟨TStatus.readError, 1, st, lastHint, [Event.read (-1)], []⟩
    | ReadResult.chunk bs =>
      if bs.length = 0 then
        some ⟨TStatus.success, 0, st, lastHint, [Event.read 0], []⟩
      else
        match drainChunk env fuel st bs 0 wIdx lastHint with
        | none => none
        | some d =>
          match d.abort with
          | some s => some ⟨s, 1, d.st, d.lastHint, Event.read bs.length :: d.trace, d.dest⟩
          | none =>
            match readLoop env fuel d.st (rIdx+1) d.wIdx d.lastHint with
            | none => none
            | some l => some { l with
                trace := Event.read bs.length :: d.trace ++ l.trace,
                dest := d.dest ++ l.dest }

/-- Final instrumented outcome of a terminating call. -/
structure RunResult where
  rc : Int
  status : TStatus
  trace : List Event
  dest : Bytes
  acct : Accounting
  lastHint : Nat
deriving Repr, DecidableEq

/-- Shallow embedding of `zstd_decompress_fd`: create the decompression
context, initialize the stream, allocate the staging buffers, run the read
loop, and on every exit path free the buffers and destroy the context
exactly as the C control flow does (`free(NULL)` is a no-op, so only
successful allocations count as freed). -/
def zstd_decompress_fd (env : Env σ) (fuel : Nat) : Option RunResult :=
  if !env.createOk then
    some ⟨1, TStatus.contextCreationFailed, [], [], ⟨0, 0, 0, 0, 0, 0⟩, 0⟩
  else if env.initError then
    some ⟨1, TStatus.initFailed, [], [], ⟨1, 1, 0, 0, 0, 0⟩, 0⟩
  else
    let ia : Nat := if env.mallocInOk then 1 else 0
    let oa : Nat := if env.mallocOutOk then 1 else 0
    if !env.mallocInOk || !env.mallocOutOk then
      some ⟨1, TStatus.allocationFailed, [], [], ⟨1, 1, ia, ia, oa, oa⟩, 0⟩
    else
      match readLoop env fuel env.initState 0 0 0 with
      | none => none
      | some l => some ⟨l.rc, l.status, l.trace, l.dest, ⟨1, 1, 1, 1, 1, 1⟩, l.lastHint⟩

/-- Does an event denote a `read` call? -/
def Event.isRead : Event → Bool
  | Event.read _ => true
  | _ => false

/-- A `write` event that did not transfer exactly the staged byte count
(this includes negative error returns). -/
def Event.isShortWrite : Event → Bool
  | Event.write data ret => decide (ret ≠ (data.length : Int))
  | _ => false

/-- A short write, when it occurs, is the last event of the trace: nothing
at all (in particular no read and no decompress step) follows it. -/
def ShortWriteFinal : List Event → Prop
  | [] => True
  | e :: rest => (e.isShortWrite = true → rest = []) ∧ ShortWriteFinal rest

/-- Every decompress step is invoked with a freshly zero-positioned output
buffer of the full recommended capacity. -/
def StepFresh (outCap : Nat) : Event → Prop
  | Event.step _ _ outPos cap _ _ _ => outPos = 0 ∧ cap = outCap
  | _ => True

/-- Output produced by a successful decompress step is written to the
destination immediately, before any further event. -/
def FlushedNext : List Event → Prop
  | [] => True
  | Event.step _ _ _ _ er _ produced :: rest =>
      (er = false → produced ≠ [] → ∃ ret tail, rest = Event.write produced ret :: tail) ∧
      FlushedNext rest
  | _ :: rest => FlushedNext rest

/-- A positive read of `n` bytes is immediately followed by a decompress
step on an input chunk of size `n` with its consumption cursor at 0. -/
def ReadThenStep (outCap : Nat) : List Event → Prop
  | [] => True
  | Event.read n :: rest =>
      (0 < n → ∃ er c pr tail,
        rest = Event.step 0 n.toNat 0 outCap er c pr :: tail) ∧
      ReadThenStep outCap rest
  | _ :: rest => ReadThenStep outCap rest

theorem drain_trace_noRead (env : Env σ) :
    ∀ fuel st chunk pos wIdx lastHint d,
      drainChunk env fuel st chunk pos wIdx lastHint = some d →
      ∀ e ∈ d.trace, e.isRead = false := by
  intro fuel
  induction fuel with
  | zero => intro st chunk pos wIdx lastHint d h; simp [drainChunk] at h
  | succ n ih =>
    intro st chunk pos wIdx lastHint d h
    simp only [drainChunk] at h
    split at h
    · split at h
      · simp only [Option.some.injEq] at h
        subst h
        intro e he
        simp only [List.mem_singleton] at he
        subst he
        rfl
      · split at h
        · split at h
          · simp only [Option.some.injEq] at h
            subst h
            intro e he
            simp only [List.mem_cons, List.not_mem_nil, or_false] at he
            rcases he with rfl | rfl <;> rfl
          · split at h
            · exact absurd h (by simp)
            · rename_i d' hd'
              simp only [Option.some.injEq] at h
              subst h
              intro e he
              simp only [List.mem_cons] at he
              rcases he with rfl | rfl | he
              · rfl
              · rfl
              · exact ih _ _ _ _ _ _ hd' e he
        · split at h
          · exact absurd h (by simp)
          · rename_i d' hd'
            simp only [Option.some.injEq] at h
            subst h
            intro e he
            simp only [List.mem_cons] at he
            rcases he with rfl | he
            · rfl
            · exact ih _ _ _ _ _ _ hd' e he
    · simp only [Option.some.injEq] at h
      subst h
      intro e he
      simp at he

@[simp]
theorem shortWriteFinal_nil : ShortWriteFinal [] := trivial

@[simp]
theorem shortWriteFinal_cons {e : Event} {rest : List Event} :
    ShortWriteFinal (e :: rest) ↔
      ((e.isShortWrite = true → rest = []) ∧ ShortWriteFinal rest) := Iff.rfl

@[simp]
theorem flushedNext_nil : FlushedNext [] := trivial

@[simp]
theorem flushedNext_cons_read {n : Int} {rest : List Event} :
    FlushedNext (Event.read n :: rest) ↔ FlushedNext rest := Iff.rfl

@[simp]
theorem flushedNext_cons_write {data : Bytes} {ret : Int} {rest : List Event} :
    FlushedNext (Event.write data ret :: rest) ↔ FlushedNext rest := Iff.rfl

@[simp]
theorem flushedNext_cons_step {a b c d : Nat} {er : Bool} {co : Nat} {pr : Bytes}
    {rest : List Event} :
    FlushedNext (Event.step a b c d er co pr :: rest) ↔
      ((er = false → pr ≠ [] → ∃ ret tail, rest = Event.write pr ret :: tail) ∧
        FlushedNext rest) := Iff.rfl

@[simp]
theorem readThenStep_nil {outCap : Nat} : ReadThenStep outCap [] := trivial

@[simp]
theorem readThenStep_cons_read {outCap : Nat} {n : Int} {rest : List Event} :
    ReadThenStep outCap (Event.read n :: rest) ↔
      ((0 < n → ∃ er c pr tail,
        rest = Event.step 0 n.toNat 0 outCap er c pr :: tail) ∧
        ReadThenStep outCap rest) := Iff.rfl

@[simp]
theorem readThenStep_cons_step {outCap : Nat} {a b c d : Nat} {er : Bool} {co : Nat}
    {pr : Bytes} {rest : List Event} :
    ReadThenStep outCap (Event.step a b c d er co pr :: rest) ↔ ReadThenStep outCap rest :=
  Iff.rfl

@[simp]
theorem readThenStep_cons_write {outCap : Nat} {data : Bytes} {ret : Int} {rest : List Event} :
    ReadThenStep outCap (Event.write data ret :: rest) ↔ ReadThenStep outCap rest := Iff.rfl

theorem drain_trace_head (env : Env σ) {fuel : Nat} {st : σ} {chunk : Bytes}
    {pos wIdx lastHint : Nat} {d : DrainRes σ}
    (h : drainChunk env fuel st chunk pos wIdx lastHint = some d)
    (hpos : pos < chunk.length) :
    ∃ er c pr tail, d.trace = Event.step pos chunk.length 0 env.outSize er c pr :: tail := by
  cases fuel with
  | zero => simp [drainChunk] at h
  | succ n =>
    simp only [drainChunk] at h
    rw [if_pos hpos] at h
    split at h
    · simp only [Option.some.injEq] at h
      subst h
      exact ⟨_, _, _, _, rfl⟩
    · split at h
      · split at h
        · simp only [Option.some.injEq] at h
          subst h
          exact ⟨_, _, _, _, rfl⟩
        · split at h
          · exact absurd h (by simp)
          · simp only [Option.some.injEq] at h
            subst h
            exact ⟨_, _, _, _, rfl⟩
      · split at h
        · exact absurd h (by simp)
        · simp only [Option.some.injEq] at h
          subst h
          exact ⟨_, _, _, _, rfl⟩

theorem drain_stepFresh (env : Env σ) :
    ∀ fuel st chunk pos wIdx lastHint d,
      drainChunk env fuel st chunk pos wIdx lastHint = some d →
      ∀ e ∈ d.trace, StepFresh env.outSize e := by
  intro fuel
  induction fuel with
  | zero => intro st chunk pos wIdx lastHint d h; simp [drainChunk] at h
  | succ n ih =>
    intro st chunk pos wIdx lastHint d h
    simp only [drainChunk] at h
    split at h
    · split at h
      · simp only [Option.some.injEq] at h
        subst h
        intro e he
        simp only [List.mem_singleton] at he
        subst he
        exact ⟨rfl, rfl⟩
      · split at h
        · split at h
          · simp only [Option.some.injEq] at h
            subst h
            intro e he
            simp only [List.mem_cons, List.not_mem_nil, or_false] at he
            rcases he with rfl | rfl
            · exact ⟨rfl, rfl⟩
            · trivial
          · split at h
            · exact absurd h (by simp)
            · rename_i d' hd'
              simp only [Option.some.injEq] at h
              subst h
              intro e he
              simp only [List.mem_cons] at he
              rcases he with rfl | rfl | he
              · exact ⟨rfl, rfl⟩
              · trivial
              · exact ih _ _ _ _ _ _ hd' e he
        · split at h
          · exact absurd h (by simp)
          · rename_i d' hd'
            simp only [Option.some.injEq] at h
            subst h
            intro e he
            simp only [List.mem_cons] at he
            rcases he with rfl | he
            · exact ⟨rfl, rfl⟩
            · exact ih _ _ _ _ _ _ hd' e he
    · simp only [Option.some.injEq] at h
      subst h
      intro e he
      simp at he

theorem drain_flushed (env : Env σ) :
    ∀ fuel st chunk pos wIdx lastHint d,
      drainChunk env fuel st chunk pos wIdx lastHint = some d →
      FlushedNext d.trace := by
  intro fuel
  induction fuel with
  | zero => intro st chunk pos wIdx lastHint d h; simp [drainChunk] at h
  | succ n ih =>
    intro st chunk pos wIdx lastHint d h
    simp only [drainChunk] at h
    split at h
    · split at h
      · rename_i herr
        simp only [Option.some.injEq] at h
        subst h
        refine ⟨?_, trivial⟩
        intro hf
        rw [hf] at herr
        exact absurd herr (by simp)
      · split at h
        · split at h
          · simp only [Option.some.injEq] at h
            subst h
            exact ⟨fun _ _ => ⟨_, _, rfl⟩, trivial⟩
          · split at h
            · exact absurd h (by simp)
            · rename_i d' hd'
              simp only [Option.some.injEq] at h
              subst h
              exact ⟨fun _ _ => ⟨_, _, rfl⟩, (flushedNext_cons_write).mpr (ih _ _ _ _ _ _ hd')⟩
        · rename_i hlen
          split at h
          · exact absurd h (by simp)
          · rename_i d' hd'
            simp only [Option.some.injEq] at h
            subst h
            refine ⟨?_, ih _ _ _ _ _ _ hd'⟩
            intro _ hp
            exact absurd (List.length_eq_zero.mp (by omega)) hp
    · simp only [Option.some.injEq] at h
      subst h
      trivial

theorem drain_swf (env : Env σ) :
    ∀ fuel st chunk pos wIdx lastHint d,
      drainChunk env fuel st chunk pos wIdx lastHint = some d →
      ShortWriteFinal d.trace ∧
        (d.abort ≠ some TStatus.shortWrite → ∀ e ∈ d.trace, e.isShortWrite = false) := by
  intro fuel
  induction fuel with
  | zero => intro st chunk pos wIdx lastHint d h; simp [drainChunk] at h
  | succ n ih =>
    intro st chunk pos wIdx lastHint d h
    simp only [drainChunk] at h
    split at h
    · split at h
      · simp only [Option.some.injEq] at h
        subst h
        refine ⟨⟨?_, trivial⟩, ?_⟩
        · intro hsw
          simp [Event.isShortWrite] at hsw
        · intro _ e he
          simp only [List.mem_singleton] at he
          subst he
          rfl
      · split at h
        · split at h
          · simp only [Option.some.injEq] at h
            subst h
            refine ⟨⟨?_, fun _ => rfl, trivial⟩, ?_⟩
            · intro hsw
              simp [Event.isShortWrite] at hsw
            · intro habort
              exact absurd rfl habort
          · rename_i hw
            split at h
            · exact absurd h (by simp)
            · rename_i d' hd'
              simp only [Option.some.injEq] at h
              subst h
              have hIH := ih _ _ _ _ _ _ hd'
              refine ⟨⟨?_, ?_, hIH.1⟩, ?_⟩
              · intro hsw
                simp [Event.isShortWrite] at hsw
              · intro hsw
                simp only [Event.isShortWrite, decide_eq_true_eq] at hsw
                exact absurd hsw hw
              · intro habort e he
                simp only [List.mem_cons] at he
                rcases he with rfl | rfl | he
                · rfl
                · simp only [Event.isShortWrite, decide_eq_false_iff_not]
                  exact hw
                · exact hIH.2 habort e he
        · split at h
          · exact absurd h (by simp)
          · rename_i d' hd'
            simp only [Option.some.injEq] at h
            subst h
            have hIH := ih _ _ _ _ _ _ hd'
            refine ⟨⟨?_, hIH.1⟩, ?_⟩
            · intro hsw
              simp [Event.isShortWrite] at hsw
            · intro habort e he
              simp only [List.mem_cons] at he
              rcases he with rfl | he
              · rfl
              · exact hIH.2 habort e he
    · simp only [Option.some.injEq] at h
      subst h
      exact ⟨trivial, fun _ e he => by simp at he⟩

theorem drain_pos_complete (env : Env σ)
    (hwf : ∀ st inp cap, (env.step st inp cap).consumed ≤ inp.length) :
    ∀ fuel st chunk pos wIdx lastHint d,
      drainChunk env fuel st chunk pos wIdx lastHint = some d →
      pos ≤ chunk.length → d.abort = none → d.pos = chunk.length := by
  intro fuel
  induction fuel with
  | zero => intro st chunk pos wIdx lastHint d h; simp [drainChunk] at h
  | succ n ih =>
    intro st chunk pos wIdx lastHint d h hle habort
    simp only [drainChunk] at h
    split at h
    · rename_i hlt
      split at h
      · simp only [Option.some.injEq] at h
        subst h
        simp at habort
      · split at h
        · split at h
          · simp only [Option.some.injEq] at h
            subst h
            simp at habort
          · split at h
            · exact absurd h (by simp)
            · rename_i d' hd'
              simp only [Option.some.injEq] at h
              subst h
              have hc := hwf st (chunk.drop pos) env.outSize
              simp only [List.length_drop] at hc
              have h2 := ih _ _ _ _ _ _ hd' (by omega) (by exact habort)
              exact h2
        · split at h
          · exact absurd h (by simp)
          · rename_i d' hd'
            simp only [Option.some.injEq] at h
            subst h
            have hc := hwf st (chunk.drop pos) env.outSize
            simp only [List.length_drop] at hc
            have h2 := ih _ _ _ _ _ _ hd' (by omega) (by exact habort)
            exact h2
    · rename_i hge
      simp only [Option.some.injEq] at h
      subst h
      simp only
      omega

theorem drain_abort_range (env : Env σ) :
    ∀ fuel st chunk pos wIdx lastHint d,
      drainChunk env fuel st chunk pos wIdx lastHint = some d →
      d.abort = none ∨ d.abort = some TStatus.codecError ∨
        d.abort = some TStatus.shortWrite := by
  intro fuel
  induction fuel with
  | zero => intro st chunk pos wIdx lastHint d h; simp [drainChunk] at h
  | succ n ih =>
    intro st chunk pos wIdx lastHint d h
    simp only [drainChunk] at h
    split at h
    · split at h
      · simp only [Option.some.injEq] at h
        subst h
        simp
      · split at h
        · split at h
          · simp only [Option.some.injEq] at h
            subst h
            simp
          · split at h
            · exact absurd h (by simp)
            · rename_i d' hd'
              simp only [Option.some.injEq] at h
              subst h
              have h2 := ih _ _ _ _ _ _ hd'
              exact h2
        · split at h
          · exact absurd h (by simp)
          · rename_i d' hd'
            simp only [Option.some.injEq] at h
            subst h
            have h2 := ih _ _ _ _ _ _ hd'
            exact h2
    · simp only [Option.some.injEq] at h
      subst h
      simp

theorem rts_append {outCap : Nat} :
    ∀ t1 t2 : List Event, (∀ e ∈ t1, e.isRead = false) → ReadThenStep outCap t2 →
      ReadThenStep outCap (t1 ++ t2) := by
  intro t1
  induction t1 with
  | nil => intro t2 _ h2; simpa using h2
  | cons e rest ih =>
    intro t2 h1 h2
    have hrest : ∀ x ∈ rest, x.isRead = false := fun x hx => h1 x (List.mem_cons_of_mem _ hx)
    rw [List.cons_append]
    cases e with
    | read n =>
      have := h1 _ (List.mem_cons_self _ _)
      simp [Event.isRead] at this
    | step a b c d er co pr => exact (readThenStep_cons_step).mpr (ih t2 hrest h2)
    | write data ret => exact (readThenStep_cons_write).mpr (ih t2 hrest h2)

theorem rts_of_noRead {outCap : Nat} {t : List Event}
    (h : ∀ e ∈ t, e.isRead = false) : ReadThenStep outCap t := by
  simpa using rts_append t [] h readThenStep_nil

theorem swf_append :
    ∀ t1 t2 : List Event, (∀ e ∈ t1, e.isShortWrite = false) → ShortWriteFinal t2 →
      ShortWriteFinal (t1 ++ t2) := by
  intro t1
  induction t1 with
  | nil => intro t2 _ h2; simpa using h2
  | cons e rest ih =>
    intro t2 h1 h2
    rw [List.cons_append]
    refine (shortWriteFinal_cons).mpr
      ⟨?_, ih t2 (fun x hx => h1 x (List.mem_cons_of_mem _ hx)) h2⟩
    intro hsw
    rw [h1 e (List.mem_cons_self _ _)] at hsw
    simp at hsw

theorem fbn_append :
    ∀ t1 t2 : List Event, FlushedNext t1 → FlushedNext t2 → FlushedNext (t1 ++ t2) := by
  intro t1
  induction t1 with
  | nil => intro t2 _ h2; simpa using h2
  | cons e rest ih =>
    intro t2 h1 h2
    rw [List.cons_append]
    cases e with
    | read n => exact (flushedNext_cons_read).mpr (ih t2 ((flushedNext_cons_read).mp h1) h2)
    | write data ret =>
      exact (flushedNext_cons_write).mpr (ih t2 ((flushedNext_cons_write).mp h1) h2)
    | step a b c d er co pr =>
      obtain ⟨hob, hrest⟩ := (flushedNext_cons_step).mp h1
      refine (flushedNext_cons_step).mpr ⟨?_, ih t2 hrest h2⟩
      intro her hpr
      obtain ⟨ret, tail, htail⟩ := hob her hpr
      exact ⟨ret, tail ++ t2, by rw [htail]; simp⟩

theorem loop_nonempty (env : Env σ) :
    ∀ fuel st rIdx wIdx lastHint l,
      readLoop env fuel st rIdx wIdx lastHint = some l → l.trace ≠ [] := by
  intro fuel
  induction fuel with
  | zero => intro st rIdx wIdx lastHint l h; simp [readLoop] at h
  | succ n _ =>
    intro st rIdx wIdx lastHint l h
    simp only [readLoop] at h
    split at h
    · simp only [Option.some.injEq] at h
      subst h
      simp
    · split at h
      · simp only [Option.some.injEq] at h
        subst h
        simp
      · split at h
        · exact absurd h (by simp)
        · split at h
          · simp only [Option.some.injEq] at h
            subst h
            simp
          · split at h
            · exact absurd h (by simp)
            · simp only [Option.some.injEq] at h
              subst h
              simp

theorem loop_rc (env : Env σ) :
    ∀ fuel st rIdx wIdx lastHint l,
      readLoop env fuel st rIdx wIdx lastHint = some l →
      (l.rc = 0 ↔ l.status = TStatus.success) ∧ (l.rc = 0 ∨ l.rc = 1) := by
  intro fuel
  induction fuel with
  | zero => intro st rIdx wIdx lastHint l h; simp [readLoop] at h
  | succ n ih =>
    intro st rIdx wIdx lastHint l h
    simp only [readLoop] at h
    split at h
    · simp only [Option.some.injEq] at h
      subst h
      exact ⟨by simp, Or.inr rfl⟩
    · split at h
      · simp only [Option.some.injEq] at h
        subst h
        exact ⟨by simp, Or.inl rfl⟩
      · split at h
        · exact absurd h (by simp)
        · rename_i d hd
          split at h
          · rename_i s habort
            simp only [Option.some.injEq] at h
            subst h
            have hrange := drain_abort_range env _ _ _ _ _ _ _ hd
            rw [habort] at hrange
            simp only [Option.some.injEq, reduceCtorEq, false_or] at hrange
            rcases hrange with rfl | rfl
            · exact ⟨by simp, Or.inr rfl⟩
            · exact ⟨by simp, Or.inr rfl⟩
          · split at h
            · exact absurd h (by simp)
            · rename_i l' hl'
              simp only [Option.some.injEq] at h
              subst h
              have h2 := ih _ _ _ _ _ hl'
              exact h2

theorem loop_success_last (env : Env σ) :
    ∀ fuel st rIdx wIdx lastHint l,
      readLoop env fuel st rIdx wIdx lastHint = some l →
      l.status = TStatus.success → l.trace.getLast? = some (Event.read 0) := by
  intro fuel
  induction fuel with
  | zero => intro st rIdx wIdx lastHint l h; simp [readLoop] at h
  | succ n ih =>
    intro st rIdx wIdx lastHint l h
    simp only [readLoop] at h
    split at h
    · simp only [Option.some.injEq] at h
      subst h
      intro hs
      simp at hs
    · rename_i bs hbs
      split at h
      · simp only [Option.some.injEq] at h
        subst h
        intro _
        rfl
      · rename_i hlen
        split at h
        · exact absurd h (by simp)
        · rename_i d hd
          split at h
          · rename_i s habort
            simp only [Option.some.injEq] at h
            subst h
            intro hs
            have hs' : s = TStatus.success := hs
            subst hs'
            have hrange := drain_abort_range env _ _ _ _ _ _ _ hd
            rw [habort] at hrange
            simp at hrange
          · rename_i habort
            split at h
            · exact absurd h (by simp)
            · rename_i l' hl'
              simp only [Option.some.injEq] at h
              subst h
              intro hs
              have hs' : l'.status = TStatus.success := hs
              show ((Event.read (bs.length : Int) :: d.trace) ++ l'.trace).getLast? =
                some (Event.read 0)
              rw [List.getLast?_append_of_ne_nil _ (loop_nonempty env _ _ _ _ _ _ hl')]
              exact ih _ _ _ _ _ hl' hs'

theorem loop_negRead (env : Env σ) :
    ∀ fuel st rIdx wIdx lastHint l,
      readLoop env fuel st rIdx wIdx lastHint = some l →
      ∀ m : Int, Event.read m ∈ l.trace → m < 0 →
      l.status = TStatus.readError ∧ l.rc = 1 ∧
        l.trace.getLast? = some (Event.read m) := by
  intro fuel
  induction fuel with
  | zero => intro st rIdx wIdx lastHint l h; simp [readLoop] at h
  | succ n ih =>
    intro st rIdx wIdx lastHint l h
    simp only [readLoop] at h
    split at h
    · simp only [Option.some.injEq] at h
      subst h
      intro m hm _
      simp only [List.mem_singleton, Event.read.injEq] at hm
      subst hm
      exact ⟨rfl, rfl, rfl⟩
    · rename_i bs hbs
      split at h
      · simp only [Option.some.injEq] at h
        subst h
        intro m hm hneg
        simp only [List.mem_singleton, Event.read.injEq] at hm
        subst hm
        exact absurd hneg (by simp)
      · rename_i hlen
        split at h
        · exact absurd h (by simp)
        · rename_i d hd
          split at h
          · rename_i s habort
            simp only [Option.some.injEq] at h
            subst h
            intro m hm hneg
            simp only [List.mem_cons, Event.read.injEq] at hm
            rcases hm with rfl | hm
            · exact absurd hneg (by simp)
            · have := drain_trace_noRead env _ _ _ _ _ _ _ hd _ hm
              simp [Event.isRead] at this
          · rename_i habort
            split at h
            · exact absurd h (by simp)
            · rename_i l' hl'
              simp only [Option.some.injEq] at h
              subst h
              intro m hm hneg
              simp only [List.mem_append, List.mem_cons, Event.read.injEq] at hm
              rcases hm with (rfl | hm) | hm
              · exact absurd hneg (by simp)
              · have := drain_trace_noRead env _ _ _ _ _ _ _ hd _ hm
                simp [Event.isRead] at this
              · have hIH := ih _ _ _ _ _ hl' m hm hneg
                refine ⟨hIH.1, hIH.2.1, ?_⟩
                show ((Event.read (bs.length : Int) :: d.trace) ++ l'.trace).getLast? =
                  some (Event.read m)
                rw [List.getLast?_append_of_ne_nil _ (loop_nonempty env _ _ _ _ _ _ hl')]
                exact hIH.2.2

theorem loop_read0 (env : Env σ) :
    ∀ fuel st rIdx wIdx lastHint l,
      readLoop env fuel st rIdx wIdx lastHint = some l →
      Event.read 0 ∈ l.trace → l.status = TStatus.success ∧ l.rc = 0 := by
  intro fuel
  induction fuel with
  | zero => intro st rIdx wIdx lastHint l h; simp [readLoop] at h
  | succ n ih =>
    intro st rIdx wIdx lastHint l h
    simp only [readLoop] at h
    split at h
    · simp only [Option.some.injEq] at h
      subst h
      intro hm
      simp only [List.mem_singleton, Event.read.injEq] at hm
      exact absurd hm (by decide)
    · rename_i bs hbs
      split at h
      · simp only [Option.some.injEq] at h
        subst h
        intro _
        exact ⟨rfl, rfl⟩
      · rename_i hlen
        split at h
        · exact absurd h (by simp)
        · rename_i d hd
          split at h
          · rename_i s habort
            simp only [Option.some.injEq] at h
            subst h
            intro hm
            simp only [List.mem_cons, Event.read.injEq] at hm
            rcases hm with h0 | hm
            · exact absurd (Nat.cast_eq_zero.mp h0.symm) hlen
            · have := drain_trace_noRead env _ _ _ _ _ _ _ hd _ hm
              simp [Event.isRead] at this
          · rename_i habort
            split at h
            · exact absurd h (by simp)
            · rename_i l' hl'
              simp only [Option.some.injEq] at h
              subst h
              intro hm
              simp only [List.mem_append, List.mem_cons, Event.read.injEq] at hm
              rcases hm with (h0 | hm) | hm
              · exact absurd (Nat.cast_eq_zero.mp h0.symm) hlen
              · have := drain_trace_noRead env _ _ _ _ _ _ _ hd _ hm
                simp [Event.isRead] at this
              · have h2 := ih _ _ _ _ _ hl' hm
                exact h2

theorem loop_rts (env : Env σ) :
    ∀ fuel st rIdx wIdx lastHint l,
      readLoop env fuel st rIdx wIdx lastHint = some l →
      ReadThenStep env.outSize l.trace := by
  intro fuel
  induction fuel with
  | zero => intro st rIdx wIdx lastHint l h; simp [readLoop] at h
  | succ n ih =>
    intro st rIdx wIdx lastHint l h
    simp only [readLoop] at h
    split at h
    · simp only [Option.some.injEq] at h
      subst h
      exact (readThenStep_cons_read).mpr ⟨fun h0 => absurd h0 (by decide), readThenStep_nil⟩
    · rename_i bs hbs
      split at h
      · simp only [Option.some.injEq] at h
        subst h
        exact (readThenStep_cons_read).mpr ⟨fun h0 => absurd h0 (by decide), readThenStep_nil⟩
      · rename_i hlen
        split at h
        · exact absurd h (by simp)
        · rename_i d hd
          split at h
          · rename_i s habort
            simp only [Option.some.injEq] at h
            subst h
            refine (readThenStep_cons_read).mpr
              ⟨?_, rts_of_noRead (drain_trace_noRead env _ _ _ _ _ _ _ hd)⟩
            intro _
            obtain ⟨er, c, pr, tail, htr⟩ :=
              drain_trace_head env hd (Nat.pos_of_ne_zero hlen)
            exact ⟨er, c, pr, tail, by rw [htr]; simp⟩
          · rename_i habort
            split at h
            · exact absurd h (by simp)
            · rename_i l' hl'
              simp only [Option.some.injEq] at h
              subst h
              refine (readThenStep_cons_read).mpr
                ⟨?_, rts_append _ _ (drain_trace_noRead env _ _ _ _ _ _ _ hd)
                  (ih _ _ _ _ _ hl')⟩
              intro _
              obtain ⟨er, c, pr, tail, htr⟩ :=
                drain_trace_head env hd (Nat.pos_of_ne_zero hlen)
              exact ⟨er, c, pr, tail ++ l'.trace, by rw [htr]; simp⟩

theorem loop_swf (env : Env σ) :
    ∀ fuel st rIdx wIdx lastHint l,
      readLoop env fuel st rIdx wIdx lastHint = some l →
      ShortWriteFinal l.trace ∧
        (l.status ≠ TStatus.shortWrite → ∀ e ∈ l.trace, e.isShortWrite = false) := by
  intro fuel
  induction fuel with
  | zero => intro st rIdx wIdx lastHint l h; simp [readLoop] at h
  | succ n ih =>
    intro st rIdx wIdx lastHint l h
    simp only [readLoop] at h
    split at h
    · simp only [Option.some.injEq] at h
      subst h
      refine ⟨(shortWriteFinal_cons).mpr ⟨fun hsw => ?_, shortWriteFinal_nil⟩, ?_⟩
      · simp [Event.isShortWrite] at hsw
      · intro _ e he
        simp only [List.mem_singleton] at he
        subst he
        rfl
    · rename_i bs hbs
      split at h
      · simp only [Option.some.injEq] at h
        subst h
        refine ⟨(shortWriteFinal_cons).mpr ⟨fun hsw => ?_, shortWriteFinal_nil⟩, ?_⟩
        · simp [Event.isShortWrite] at hsw
        · intro _ e he
          simp only [List.mem_singleton] at he
          subst he
          rfl
      · rename_i hlen
        split at h
        · exact absurd h (by simp)
        · rename_i d hd
          split at h
          · rename_i s habort
            simp only [Option.some.injEq] at h
            subst h
            have hdsw := drain_swf env _ _ _ _ _ _ _ hd
            refine ⟨(shortWriteFinal_cons).mpr ⟨fun hsw => ?_, hdsw.1⟩, ?_⟩
            · simp [Event.isShortWrite] at hsw
            · intro hns e he
              have hns' : s ≠ TStatus.shortWrite := hns
              have hne : d.abort ≠ some TStatus.shortWrite := by
                rw [habort]
                intro hc
                exact hns' (Option.some.inj hc)
              simp only [List.mem_cons] at he
              rcases he with rfl | he
              · rfl
              · exact hdsw.2 hne e he
          · rename_i habort
            split at h
            · exact absurd h (by simp)
            · rename_i l' hl'
              simp only [Option.some.injEq] at h
              subst h
              have hdsw := drain_swf env _ _ _ _ _ _ _ hd
              have hne : d.abort ≠ some TStatus.shortWrite := by
                rw [habort]
                simp
              have hIH := ih _ _ _ _ _ hl'
              refine ⟨(shortWriteFinal_cons).mpr
                ⟨fun hsw => ?_, swf_append _ _ (hdsw.2 hne) hIH.1⟩, ?_⟩
              · simp [Event.isShortWrite] at hsw
              · intro hns e he
                have hns' : l'.status ≠ TStatus.shortWrite := hns
                simp only [List.mem_append, List.mem_cons] at he
                rcases he with (rfl | he) | he
                · rfl
                · exact hdsw.2 hne e he
                · exact hIH.2 hns' e he

theorem loop_stepFresh (env : Env σ) :
    ∀ fuel st rIdx wIdx lastHint l,
      readLoop env fuel st rIdx wIdx lastHint = some l →
      ∀ e ∈ l.trace, StepFresh env.outSize e := by
  intro fuel
  induction fuel with
  | zero => intro st rIdx wIdx lastHint l h; simp [readLoop] at h
  | succ n ih =>
    intro st rIdx wIdx lastHint l h
    simp only [readLoop] at h
    split at h
    · simp only [Option.some.injEq] at h
      subst h
      intro e he
      simp only [List.mem_singleton] at he
      subst he
      trivial
    · rename_i bs hbs
      split at h
      · simp only [Option.some.injEq] at h
        subst h
        intro e he
        simp only [List.mem_singleton] at he
        subst he
        trivial
      · rename_i hlen
        split at h
        · exact absurd h (by simp)
        · rename_i d hd
          split at h
          · rename_i s habort
            simp only [Option.some.injEq] at h
            subst h
            intro e he
            simp only [List.mem_cons] at he
            rcases he with rfl | he
            · trivial
            · exact drain_stepFresh env _ _ _ _ _ _ _ hd e he
          · rename_i habort
            split at h
            · exact absurd h (by simp)
            · rename_i l' hl'
              simp only [Option.some.injEq] at h
              subst h
              intro e he
              simp only [List.mem_append, List.mem_cons] at he
              rcases he with (rfl | he) | he
              · trivial
              · exact drain_stepFresh env _ _ _ _ _ _ _ hd e he
              · exact ih _ _ _ _ _ hl' e he

theorem loop_flushed (env : Env σ) :
    ∀ fuel st rIdx wIdx lastHint l,
      readLoop env fuel st rIdx wIdx lastHint = some l →
      FlushedNext l.trace := by
  intro fuel
  induction fuel with
  | zero => intro st rIdx wIdx lastHint l h; simp [readLoop] at h
  | succ n ih =>
    intro st rIdx wIdx lastHint l h
    simp only [readLoop] at h
    split at h
    · simp only [Option.some.injEq] at h
      subst h
      exact (flushedNext_cons_read).mpr flushedNext_nil
    · rename_i bs hbs
      split at h
      · simp only [Option.some.injEq] at h
        subst h
        exact (flushedNext_cons_read).mpr flushedNext_nil
      · rename_i hlen
        split at h
        · exact absurd h (by simp)
        · rename_i d hd
          split at h
          · rename_i s habort
            simp only [Option.some.injEq] at h
            subst h
            exact (flushedNext_cons_read).mpr (drain_flushed env _ _ _ _ _ _ _ hd)
          · rename_i habort
            split at h
            · exact absurd h (by simp)
            · rename_i l' hl'
              simp only [Option.some.injEq] at h
              subst h
              exact (flushedNext_cons_read).mpr
                (fbn_append _ _ (drain_flushed env _ _ _ _ _ _ _ hd) (ih _ _ _ _ _ hl'))

theorem run_cases (env : Env σ) (fuel : Nat) {r : RunResult}
    (h : zstd_decompress_fd env fuel = some r) :
    (env.createOk = false ∧
      r = ⟨1, TStatus.contextCreationFailed, [], [], ⟨0, 0, 0, 0, 0, 0⟩, 0⟩) ∨
    (env.createOk = true ∧ env.initError = true ∧
      r = ⟨1, TStatus.initFailed, [], [], ⟨1, 1, 0, 0, 0, 0⟩, 0⟩) ∨
    (env.createOk = true ∧ env.initError = false ∧
      (env.mallocInOk = false ∨ env.mallocOutOk = false) ∧
      r = ⟨1, TStatus.allocationFailed, [], [],
        ⟨1, 1, if env.mallocInOk then 1 else 0, if env.mallocInOk then 1 else 0,
          if env.mallocOutOk then 1 else 0, if env.mallocOutOk then 1 else 0⟩, 0⟩) ∨
    (env.createOk = true ∧ env.initError = false ∧
      env.mallocInOk = true ∧ env.mallocOutOk = true ∧
      ∃ l, readLoop env fuel env.initState 0 0 0 = some l ∧
        r = ⟨l.rc, l.status, l.trace, l.dest, ⟨1, 1, 1, 1, 1, 1⟩, l.lastHint⟩) := by
  simp only [zstd_decompress_fd] at h
  split at h
  · rename_i hc
    simp only [Bool.not_eq_true'] at hc
    simp only [Option.some.injEq] at h
    exact Or.inl ⟨hc, h.symm⟩
  · rename_i hc
    simp only [Bool.not_eq_true', Bool.not_eq_false] at hc
    split at h
    · rename_i hi
      simp only [Option.some.injEq] at h
      exact Or.inr (Or.inl ⟨hc, hi, h.symm⟩)
    · rename_i hi
      simp only [Bool.not_eq_true] at hi
      split at h
      · rename_i hm
        simp only [Bool.or_eq_true, Bool.not_eq_true'] at hm
        simp only [Option.some.injEq] at h
        exact Or.inr (Or.inr (Or.inl ⟨hc, hi, hm, h.symm⟩))
      · rename_i hm
        simp only [Bool.or_eq_true, Bool.not_eq_true', not_or] at hm
        push_neg at hm
        obtain ⟨hmi, hmo⟩ := hm
        split at h
        · exact absurd h (by simp)
        · rename_i l hl
          simp only [Option.some.injEq] at h
          refine Or.inr (Or.inr (Or.inr ⟨hc, hi, ?_, ?_, l, hl, h.symm⟩))
          · cases hb : env.mallocInOk with
            | true => rfl
            | false => exact absurd hb hmi
          · cases hb : env.mallocOutOk with
            | true => rfl
            | false => exact absurd hb hmo

/-- C7: `zstd_decompress_fd` returns `0` exactly when the transform
succeeds; every failure path (context creation, init, allocation, codec
error, read error, short write) returns the single non-zero value `1` —
the boundary collapses all failure kinds into one non-zero signal. -/
theorem zstd_decompress_fd_rc_boundary (env : Env σ) (fuel : Nat) (r : RunResult)
    (h : zstd_decompress_fd env fuel = some r) :
    (r.rc = 0 ↔ r.status = TStatus.success) ∧ (r.rc = 0 ∨ r.rc = 1) := by
  rcases run_cases env fuel h with ⟨_, rfl⟩ | ⟨_, _, rfl⟩ | ⟨_, _, _, rfl⟩ |
    ⟨_, _, _, _, l, hl, rfl⟩
  · exact ⟨by simp, Or.inr rfl⟩
  · exact ⟨by simp, Or.inr rfl⟩
  · exact ⟨by simp, Or.inr rfl⟩
  · have h2 := loop_rc env fuel _ _ _ _ _ hl
    exact h2

/-- C2: on every exit path of `zstd_decompress_fd` the codec context is
destroyed exactly as many times as it was created (exactly once whenever
creation succeeded), and each staging buffer that was successfully
allocated is freed exactly once — allocate and release counts match on
every branch. -/
theorem zstd_decompress_fd_resource_balance (env : Env σ) (fuel : Nat) (r : RunResult)
    (h : zstd_decompress_fd env fuel = some r) :
    r.acct.ctxFreed = r.acct.ctxCreated ∧
    r.acct.inFreed = r.acct.inAlloc ∧
    r.acct.outFreed = r.acct.outAlloc ∧
    r.acct.ctxCreated ≤ 1 ∧ r.acct.inAlloc ≤ 1 ∧ r.acct.outAlloc ≤ 1 ∧
    (env.createOk = true → r.acct.ctxCreated = 1) := by
  rcases run_cases env fuel h with ⟨hc, rfl⟩ | ⟨_, _, rfl⟩ | ⟨_, _, _, rfl⟩ |
    ⟨_, _, _, _, l, hl, rfl⟩
  · refine ⟨rfl, rfl, rfl, by simp, by simp, by simp, fun hc' => ?_⟩
    rw [hc] at hc'
    cases hc'
  · exact ⟨rfl, rfl, rfl, by simp, by simp, by simp, fun _ => rfl⟩
  · refine ⟨rfl, rfl, rfl, by simp, ?_, ?_, fun _ => rfl⟩
    · show (if env.mallocInOk then 1 else 0) ≤ 1
      split <;> simp
    · show (if env.mallocOutOk then 1 else 0) ≤ 1
      split <;> simp
  · exact ⟨rfl, rfl, rfl, by simp, by simp, by simp, fun _ => rfl⟩

/-- C5: if context creation fails the call fails with nothing allocated and
nothing written; if stream initialization fails the context is released and
the call fails; if a staging-buffer allocation fails, everything already
allocated is released and the call fails — and in all three setup-failure
cases no event has occurred and nothing has been written to the
destination. -/
theorem zstd_decompress_fd_setup_failures (env : Env σ) (fuel : Nat) :
    (env.createOk = false →
      zstd_decompress_fd env fuel =
        some ⟨1, TStatus.contextCreationFailed, [], [], ⟨0, 0, 0, 0, 0, 0⟩, 0⟩) ∧
    (env.createOk = true → env.initError = true →
      zstd_decompress_fd env fuel =
        some ⟨1, TStatus.initFailed, [], [], ⟨1, 1, 0, 0, 0, 0⟩, 0⟩) ∧
    (env.createOk = true → env.initError = false →
      env.mallocInOk = false ∨ env.mallocOutOk = false →
      ∃ r, zstd_decompress_fd env fuel = some r ∧ r.rc = 1 ∧
        r.status = TStatus.allocationFailed ∧ r.dest = [] ∧ r.trace = [] ∧
        r.acct.ctxCreated = 1 ∧ r.acct.ctxFreed = 1 ∧
        r.acct.inFreed = r.acct.inAlloc ∧ r.acct.outFreed = r.acct.outAlloc) := by
  refine ⟨?_, ?_, ?_⟩
  · intro hc
    simp [zstd_decompress_fd, hc]
  · intro hc hi
    simp [zstd_decompress_fd, hc, hi]
  · intro hc hi hm
    have hcond : (!env.mallocInOk || !env.mallocOutOk) = true := by
      rcases hm with hm | hm <;> simp [hm]
    refine ⟨⟨1, TStatus.allocationFailed, [], [],
      ⟨1, 1, if env.mallocInOk then 1 else 0, if env.mallocInOk then 1 else 0,
        if env.mallocOutOk then 1 else 0, if env.mallocOutOk then 1 else 0⟩, 0⟩,
      ?_, rfl, rfl, rfl, rfl, rfl, rfl, rfl, rfl⟩
    simp [zstd_decompress_fd, hc, hi, hcond]

theorem run_shortWrite_core (env : Env σ) (fuel : Nat) (r : RunResult)
    (h : zstd_decompress_fd env fuel = some r) :
    ShortWriteFinal r.trace ∧
      ∀ e ∈ r.trace, e.isShortWrite = true →
        r.rc = 1 ∧ r.status = TStatus.shortWrite := by
  rcases run_cases env fuel h with ⟨_, rfl⟩ | ⟨_, _, rfl⟩ | ⟨_, _, _, rfl⟩ |
    ⟨_, _, _, _, l, hl, rfl⟩
  · exact ⟨trivial, fun e he => by simp at he⟩
  · exact ⟨trivial, fun e he => by simp at he⟩
  · exact ⟨trivial, fun e he => by simp at he⟩
  · have hswf := loop_swf env fuel _ _ _ _ _ hl
    have hrc := loop_rc env fuel _ _ _ _ _ hl
    refine ⟨hswf.1, ?_⟩
    intro e he hsw
    by_cases hst : l.status = TStatus.shortWrite
    · refine ⟨?_, hst⟩
      rcases hrc.2 with h0 | h1
      · have hsucc := hrc.1.mp h0
        rw [hsucc] at hst
        exact absurd hst (by simp)
      · exact h1
    · have hcl := hswf.2 hst e he
      rw [hsw] at hcl
      exact absurd hcl (by simp)

/-- C3: a destination write that transfers fewer bytes than requested makes
the transform fail immediately: the failing short write is the final event
of the run (no further source reads and no further decompress steps occur
after it), the return code is 1 and the status is `shortWrite`. -/
theorem zstd_decompress_fd_short_write_aborts (env : Env σ) (fuel : Nat) (r : RunResult)
    (h : zstd_decompress_fd env fuel = some r) :
    ShortWriteFinal r.trace ∧
      ∀ data ret, Event.write data ret ∈ r.trace → ret < (data.length : Int) →
        r.rc = 1 ∧ r.status = TStatus.shortWrite := by
  have hcore := run_shortWrite_core env fuel r h
  refine ⟨hcore.1, fun data ret hmem hlt => hcore.2 _ hmem ?_⟩
  simp only [Event.isShortWrite, decide_eq_true_eq]
  omega

/-- C9: any write return value different from the staged output size —
including a negative error return such as -1 — is handled exactly like a
short write: the transform aborts immediately (the failing write is the
final event of the run) with return code 1 and the short-write status. -/
theorem zstd_decompress_fd_write_error_aborts (env : Env σ) (fuel : Nat) (r : RunResult)
    (h : zstd_decompress_fd env fuel = some r) :
    ShortWriteFinal r.trace ∧
      ∀ data ret, Event.write data ret ∈ r.trace → ret ≠ (data.length : Int) →
        r.rc = 1 ∧ r.status = TStatus.shortWrite := by
  have hcore := run_shortWrite_core env fuel r h
  refine ⟨hcore.1, fun data ret hmem hne => hcore.2 _ hmem ?_⟩
  simp only [Event.isShortWrite, decide_eq_true_eq]
  exact hne

/-- C4: a zero-byte read is the only non-error termination of the read loop
and leads to the success path; a negative read aborts the whole transform
with the read-error status and return code 1, the failing read being the
final event; a positive read of `n` bytes establishes an input chunk of
size `n` whose first decompress step starts at consumption cursor 0 on an
input of size `n`. -/
theorem zstd_decompress_fd_read_semantics (env : Env σ) (fuel : Nat) (r : RunResult)
    (h : zstd_decompress_fd env fuel = some r) :
    (r.status = TStatus.success →
      r.trace.getLast? = some (Event.read 0) ∧ r.rc = 0) ∧
    (Event.read 0 ∈ r.trace → r.status = TStatus.success ∧ r.rc = 0) ∧
    (∀ m : Int, Event.read m ∈ r.trace → m < 0 →
      r.status = TStatus.readError ∧ r.rc = 1 ∧
        r.trace.getLast? = some (Event.read m)) ∧
    ReadThenStep env.outSize r.trace := by
  rcases run_cases env fuel h with ⟨_, rfl⟩ | ⟨_, _, rfl⟩ | ⟨_, _, _, rfl⟩ |
    ⟨_, _, _, _, l, hl, rfl⟩
  · exact ⟨fun hs => absurd hs (by simp), fun he => by simp at he,
      fun m hm => by simp at hm, trivial⟩
  · exact ⟨fun hs => absurd hs (by simp), fun he => by simp at he,
      fun m hm => by simp at hm, trivial⟩
  · exact ⟨fun hs => absurd hs (by simp), fun he => by simp at he,
      fun m hm => by simp at hm, trivial⟩
  · have hrc := loop_rc env fuel _ _ _ _ _ hl
    refine ⟨?_, ?_, ?_, ?_⟩
    · intro hs
      have hs' : l.status = TStatus.success := hs
      exact ⟨loop_success_last env fuel _ _ _ _ _ hl hs', hrc.1.mpr hs'⟩
    · intro he
      have h2 := loop_read0 env fuel _ _ _ _ _ hl he
      exact h2
    · intro m hm hneg
      have h2 := loop_negRead env fuel _ _ _ _ _ hl m hm hneg
      exact h2
    · have h2 := loop_rts env fuel _ _ _ _ _ hl
      exact h2

/-- C6: every decompress step is invoked with a freshly zero-positioned
output buffer of the full recommended capacity; any output a step produces
is flushed to the destination before the next event; the inner drain loop
performs no source reads (no refill while unconsumed input remains), and —
for a codec that never consumes more than the remaining input — the drain
loop only finishes a chunk when its consumption cursor equals the chunk
size. -/
theorem zstd_decompress_fd_chunk_invariants (env : Env σ)
    (hwf : ∀ st inp cap, (env.step st inp cap).consumed ≤ inp.length)
    (fuel : Nat) (r : RunResult) (h : zstd_decompress_fd env fuel = some r) :
    (∀ e ∈ r.trace, StepFresh env.outSize e) ∧
    FlushedNext r.trace ∧
    (∀ fuel' st chunk pos wIdx lastHint d,
      drainChunk env fuel' st chunk pos wIdx lastHint = some d →
      (∀ e ∈ d.trace, e.isRead = false) ∧
      (pos ≤ chunk.length → d.abort = none → d.pos = chunk.length)) := by
  refine ⟨?_, ?_, ?_⟩
  · rcases run_cases env fuel h with ⟨_, rfl⟩ | ⟨_, _, rfl⟩ | ⟨_, _, _, rfl⟩ |
      ⟨_, _, _, _, l, hl, rfl⟩
    · intro e he; simp at he
    · intro e he; simp at he
    · intro e he; simp at he
    · exact loop_stepFresh env fuel _ _ _ _ _ hl
  · rcases run_cases env fuel h with ⟨_, rfl⟩ | ⟨_, _, rfl⟩ | ⟨_, _, _, rfl⟩ |
      ⟨_, _, _, _, l, hl, rfl⟩
    · trivial
    · trivial
    · trivial
    · exact loop_flushed env fuel _ _ _ _ _ hl
  · intro fuel' st chunk pos wIdx lastHint d hd
    exact ⟨drain_trace_noRead env _ _ _ _ _ _ _ hd,
      fun hle hab => drain_pos_complete env hwf _ _ _ _ _ _ _ hd hle hab⟩

/-- A codec behavior consistent with the zstd streaming contract on a
truncated frame: each step consumes all remaining input without error and
returns the positive value 1 ("more data expected for the current frame"),
never signalling frame completion (which only a return of 0 would). -/
def truncStep : Unit → Bytes → Nat → StepResult Unit :=
  fun _ inp _ => ⟨false, 1, inp.length, [], ()⟩

/-- An environment whose source delivers a single one-byte chunk of a frame
that is cut off mid-frame and then signals end-of-stream; the codec keeps
asking for more frame data, all allocations succeed, and the destination
accepts all writes. -/
def truncEnv : Env Unit :=
  { createOk := true, initError := false, inSize := 8, outSize := 8,
    mallocInOk := true, mallocOutOk := true, initState := (),
    step := truncStep, reads := [ReadResult.chunk [40]],
    writeRet := fun _ n => (n : Int) }

/-- C1: on a compressed stream cut off mid-frame, `zstd_decompress_fd`
returns 0 (success).  The run below ends because `read` returned 0 while
the codec's last decompress step had returned the positive
"more frame data expected" value 1 (recorded as `lastHint`) and the codec
never reported frame completion — yet the status is `success` and the
return code is 0, because the C code discards the non-error return value of
`ZSTD_decompressStream` and treats any end-of-stream as success. -/
theorem zstd_truncated_stream_reports_success :
    ∃ r, zstd_decompress_fd truncEnv 4 = some r ∧
      r.rc = 0 ∧ r.status = TStatus.success ∧ r.lastHint = 1 ∧ r.dest = [] :=
  ⟨⟨0, TStatus.success,
      [Event.read 1, Event.step 0 1 0 8 false 1 [], Event.read 0], [],
      ⟨1, 1, 1, 1, 1, 1⟩, 1⟩, rfl, rfl, rfl, rfl, rfl⟩

/-- The error state of a libarchive handle relevant to `archive_set_error`:
the recorded error number and error string. -/
structure Archive where
  errNum : Int
  errStr : List Char
deriving Repr, DecidableEq

/-- Modelled printf-style formatting as performed by libarchive's
`archive_set_error` (libarchive is external to this repository): directives
in the format string are interpreted — `%s` splices the next string
argument verbatim, `%%` yields a literal percent sign, and any other
directive consumes an argument and renders some converted form (abstracted
here as a placeholder) — while the characters of spliced arguments are
never re-examined for directives. -/
def formatWith : List Char → List String → List Char
  | [], _ => []
  | '%' :: 's' :: rest, a :: args => a.data ++ formatWith rest args
  | '%' :: 's' :: rest, [] => formatWith rest []
  | '%' :: '%' :: rest, args => '%' :: formatWith rest args
  | '%' :: _ :: rest, args => '?' :: formatWith rest (args.drop 1)
  | c :: rest, args => c :: formatWith rest args

/-- Modelled from libarchive's documented behavior: `archive_set_error`
records the error number and the error string obtained by formatting `fmt`
with the given arguments. -/
def archive_set_error (a : Archive) (errNumber : Int) (fmt : List Char)
    (args : List String) : Archive :=
  { a with errNum := errNumber, errStr := formatWith fmt args }

/-- Shallow embedding of `archive_set_error_wrapper`: it forwards the
caller's error string through the fixed format `"%s"` as the single
argument. -/
def archive_set_error_wrapper (a : Archive) (errNumber : Int) (s : String) : Archive :=
  archive_set_error a errNumber "%s".data [s]

/-- C10: for every archive handle, error number and error string,
`archive_set_error_wrapper` records the error string verbatim — the string
travels as a `%s` argument of the fixed format `"%s"`, so conversion
specifiers contained in it are never interpreted as format directives. -/
theorem archive_set_error_wrapper_verbatim (a : Archive) (errNumber : Int) (s : String) :
    (archive_set_error_wrapper a errNumber s).errStr = s.data ∧
    (archive_set_error_wrapper a errNumber s).errNum = errNumber := by
  constructor
  · show formatWith "%s".data [s] = s.data
    rw [show ("%s".data) = ['%', 's'] from rfl]
    simp [formatWith]
  · rfl

/-- Outcome of the reference decode: the codec's final state together with
the concatenated output bytes, or a codec error. -/
inductive SpecOut (σ : Type) where
  | ok (st : σ) (out : Bytes)
  | err
deriving Repr

/-- Modelled from the spec: the codec library's reference decode of one
input chunk — repeatedly invoke the streaming decompress step on the
unconsumed input with a full-capacity output window, concatenating the
produced bytes, until the chunk is consumed or the codec errors.  This is
the write-free mirror of `drainChunk` with the same fuel discipline. -/
def specDrain (step : σ → Bytes → Nat → StepResult σ) (outSize : Nat) :
    Nat → σ → Bytes → Nat → Option (SpecOut σ)
  | 0, _, _, _ => none
  | fuel+1, st, chunk, pos =>
    if pos < chunk.length then
      let r := step st (chunk.drop pos) outSize
      if r.isError then some SpecOut.err
      else
        match specDrain step outSize fuel r.next chunk (pos + r.consumed) with
        | none => none
        | some SpecOut.err => some SpecOut.err
        | some (SpecOut.ok st' out) => some (SpecOut.ok st' (r.produced ++ out))
    else some (SpecOut.ok st [])

/-- Modelled from the spec: the reference decode of a chunked compressed
stream — fold the per-chunk decode over the chunks in order, concatenating
the outputs; the write-free mirror of `readLoop` on a reliable source and
destination, with the same fuel discipline. -/
def specDecode (step : σ → Bytes → Nat → StepResult σ) (outSize : Nat) :
    Nat → σ → List Bytes → Option (SpecOut σ)
  | 0, _, _ => none
  | _+1, st, [] => some (SpecOut.ok st [])
  | fuel+1, st, c :: cs =>
    match specDrain step outSize fuel st c 0 with
    | none => none
    | some SpecOut.err => some SpecOut.err
    | some (SpecOut.ok st' out) =>
      match specDecode step outSize fuel st' cs with
      | none => none
      | some SpecOut.err => some SpecOut.err
      | some (SpecOut.ok st'' rest) => some (SpecOut.ok st'' (out ++ rest))

theorem getD_of_drop_cons {α : Type} :
    ∀ {n : Nat} {l : List α} {a : α} {rest : List α},
      l.drop n = a :: rest → ∀ d, l.getD n d = a := by
  intro n
  induction n with
  | zero =>
    intro l a rest h d
    simp only [List.drop_zero] at h
    subst h
    rfl
  | succ k ih =>
    intro l a rest h d
    cases l with
    | nil => simp at h
    | cons x xs =>
      simp only [List.drop_succ_cons] at h
      simpa [List.getD_cons_succ] using ih h d

theorem getD_of_drop_nil {α : Type} :
    ∀ {n : Nat} {l : List α}, l.drop n = [] → ∀ d, l.getD n d = d := by
  intro n
  induction n with
  | zero =>
    intro l h d
    simp only [List.drop_zero] at h
    subst h
    rfl
  | succ k ih =>
    intro l h d
    cases l with
    | nil => rfl
    | cons x xs =>
      simp only [List.drop_succ_cons] at h
      simpa [List.getD_cons_succ] using ih h d

theorem drop_succ_of_drop_cons {α : Type} {l : List α} {n : Nat} {a : α} {rest : List α}
    (h : l.drop n = a :: rest) : l.drop (n + 1) = rest := by
  have h2 : l.drop (n + 1) = (l.drop n).drop 1 := by
    rw [List.drop_drop]
  rw [h2, h]
  rfl

theorem drain_step_write (env : Env σ) {n : Nat} {st : σ} {chunk : Bytes}
    {pos wIdx : Nat} (lastHint : Nat) {d' : DrainRes σ}
    (hpos : pos < chunk.length)
    (herr : ¬(env.step st (chunk.drop pos) env.outSize).isError = true)
    (hp : (env.step st (chunk.drop pos) env.outSize).produced.length > 0)
    (hwne : ¬(env.writeRet wIdx (env.step st (chunk.drop pos) env.outSize).produced.length ≠
      ((env.step st (chunk.drop pos) env.outSize).produced.length : Int)))
    (hd' : drainChunk env n (env.step st (chunk.drop pos) env.outSize).next chunk
      (pos + (env.step st (chunk.drop pos) env.outSize).consumed) (wIdx + 1)
      (env.step st (chunk.drop pos) env.outSize).hint = some d') :
    drainChunk env (n + 1) st chunk pos wIdx lastHint = some
      { d' with
        trace := Event.step pos chunk.length 0 env.outSize
            (env.step st (chunk.drop pos) env.outSize).isError
            (env.step st (chunk.drop pos) env.outSize).consumed
            (env.step st (chunk.drop pos) env.outSize).produced ::
          Event.write (env.step st (chunk.drop pos) env.outSize).produced
            (env.writeRet wIdx (env.step st (chunk.drop pos) env.outSize).produced.length) ::
          d'.trace,
        dest := (env.step st (chunk.drop pos) env.outSize).produced ++ d'.dest } := by
  simp only [drainChunk]
  rw [if_pos hpos, if_neg herr, if_pos hp, if_neg hwne, hd']

theorem drain_step_nowrite (env : Env σ) {n : Nat} {st : σ} {chunk : Bytes}
    {pos wIdx : Nat} (lastHint : Nat) {d' : DrainRes σ}
    (hpos : pos < chunk.length)
    (herr : ¬(env.step st (chunk.drop pos) env.outSize).isError = true)
    (hp : ¬(env.step st (chunk.drop pos) env.outSize).produced.length > 0)
    (hd' : drainChunk env n (env.step st (chunk.drop pos) env.outSize).next chunk
      (pos + (env.step st (chunk.drop pos) env.outSize).consumed) wIdx
      (env.step st (chunk.drop pos) env.outSize).hint = some d') :
    drainChunk env (n + 1) st chunk pos wIdx lastHint = some
      { d' with
        trace := Event.step pos chunk.length 0 env.outSize
            (env.step st (chunk.drop pos) env.outSize).isError
            (env.step st (chunk.drop pos) env.outSize).consumed
            (env.step st (chunk.drop pos) env.outSize).produced ::
          d'.trace } := by
  simp only [drainChunk]
  rw [if_pos hpos, if_neg herr, if_neg hp, hd']

theorem drain_spec_eq (env : Env σ) (hw : ∀ i n, env.writeRet i n = (n : Int)) :
    ∀ fuel st chunk pos wIdx lastHint,
      (drainChunk env fuel st chunk pos wIdx lastHint = none ∧
        specDrain env.step env.outSize fuel st chunk pos = none) ∨
      (∃ d, drainChunk env fuel st chunk pos wIdx lastHint = some d ∧
        ((d.abort = none ∧
            specDrain env.step env.outSize fuel st chunk pos =
              some (SpecOut.ok d.st d.dest)) ∨
          (d.abort = some TStatus.codecError ∧
            specDrain env.step env.outSize fuel st chunk pos = some SpecOut.err))) := by
  intro fuel
  induction fuel with
  | zero => intro st chunk pos wIdx lastHint; exact Or.inl ⟨rfl, rfl⟩
  | succ n ih =>
    intro st chunk pos wIdx lastHint
    by_cases hpos : pos < chunk.length
    · by_cases herr : (env.step st (chunk.drop pos) env.outSize).isError = true
      · refine Or.inr ⟨⟨some TStatus.codecError,
            (env.step st (chunk.drop pos) env.outSize).next, pos, wIdx, lastHint,
            [Event.step pos chunk.length 0 env.outSize
              (env.step st (chunk.drop pos) env.outSize).isError
              (env.step st (chunk.drop pos) env.outSize).consumed
              (env.step st (chunk.drop pos) env.outSize).produced], []⟩,
          ?_, Or.inr ⟨rfl, ?_⟩⟩
        · simp only [drainChunk]
          rw [if_pos hpos, if_pos herr]
        · simp only [specDrain]
          rw [if_pos hpos, if_pos herr]
      · have hwne : ¬(env.writeRet wIdx
            (env.step st (chunk.drop pos) env.outSize).produced.length ≠
            (((env.step st (chunk.drop pos) env.outSize).produced.length : Nat) : Int)) := by
          rw [hw]
          simp
        by_cases hp : (env.step st (chunk.drop pos) env.outSize).produced.length > 0
        · rcases ih (env.step st (chunk.drop pos) env.outSize).next chunk
            (pos + (env.step st (chunk.drop pos) env.outSize).consumed) (wIdx + 1)
            (env.step st (chunk.drop pos) env.outSize).hint with ⟨hdn, hsn⟩ | ⟨d', hd', hcase⟩
          · refine Or.inl ⟨?_, ?_⟩
            · simp only [drainChunk]
              rw [if_pos hpos, if_neg herr, if_pos hp, if_neg hwne, hdn]
            · simp only [specDrain]
              rw [if_pos hpos, if_neg herr, hsn]
          · have hdrain := drain_step_write env lastHint hpos herr hp hwne hd'
            rcases hcase with ⟨hab, hs⟩ | ⟨hab, hs⟩
            · have hspec2 : specDrain env.step env.outSize (n + 1) st chunk pos =
                  some (SpecOut.ok d'.st
                    ((env.step st (chunk.drop pos) env.outSize).produced ++ d'.dest)) := by
                simp only [specDrain]
                rw [if_pos hpos, if_neg herr, hs]
              exact Or.inr ⟨_, hdrain, Or.inl ⟨hab, hspec2⟩⟩
            · have hspec2 : specDrain env.step env.outSize (n + 1) st chunk pos =
                  some SpecOut.err := by
                simp only [specDrain]
                rw [if_pos hpos, if_neg herr, hs]
              exact Or.inr ⟨_, hdrain, Or.inr ⟨hab, hspec2⟩⟩
        · have hpe : (env.step st (chunk.drop pos) env.outSize).produced = [] :=
            List.length_eq_zero.mp (by omega)
          rcases ih (env.step st (chunk.drop pos) env.outSize).next chunk
            (pos + (env.step st (chunk.drop pos) env.outSize).consumed) wIdx
            (env.step st (chunk.drop pos) env.outSize).hint with ⟨hdn, hsn⟩ | ⟨d', hd', hcase⟩
          · refine Or.inl ⟨?_, ?_⟩
            · simp only [drainChunk]
              rw [if_pos hpos, if_neg herr, if_neg hp, hdn]
            · simp only [specDrain]
              rw [if_pos hpos, if_neg herr, hsn]
          · have hdrain := drain_step_nowrite env lastHint hpos herr hp hd'
            rcases hcase with ⟨hab, hs⟩ | ⟨hab, hs⟩
            · have hspec2 : specDrain env.step env.outSize (n + 1) st chunk pos =
                  some (SpecOut.ok d'.st d'.dest) := by
                simp only [specDrain]
                rw [if_pos hpos, if_neg herr, hs]
                simp [hpe]
              exact Or.inr ⟨_, hdrain, Or.inl ⟨hab, hspec2⟩⟩
            · have hspec2 : specDrain env.step env.outSize (n + 1) st chunk pos =
                  some SpecOut.err := by
                simp only [specDrain]
                rw [if_pos hpos, if_neg herr, hs]
              exact Or.inr ⟨_, hdrain, Or.inr ⟨hab, hspec2⟩⟩
    · refine Or.inr ⟨⟨none, st, pos, wIdx, lastHint, [], []⟩, ?_, Or.inl ⟨rfl, ?_⟩⟩
      · simp only [drainChunk]
        rw [if_neg hpos]
      · simp only [specDrain]
        rw [if_neg hpos]

theorem loop_spec (env : Env σ) (hw : ∀ i n, env.writeRet i n = (n : Int)) :
    ∀ fuel chunks st rIdx wIdx lastHint stF out,
      env.reads.drop rIdx = chunks.map ReadResult.chunk →
      (∀ c ∈ chunks, c ≠ []) →
      specDecode env.step env.outSize fuel st chunks = some (SpecOut.ok stF out) →
      ∃ l, readLoop env fuel st rIdx wIdx lastHint = some l ∧
        l.rc = 0 ∧ l.status = TStatus.success ∧ l.dest = out := by
  intro fuel
  induction fuel with
  | zero =>
    intro chunks st rIdx wIdx lastHint stF out _ _ hspec
    simp [specDecode] at hspec
  | succ n ih =>
    intro chunks st rIdx wIdx lastHint stF out hreads hne hspec
    cases chunks with
    | nil =>
      simp only [specDecode, Option.some.injEq, SpecOut.ok.injEq] at hspec
      obtain ⟨hst, hout⟩ := hspec
      have hg : env.reads.getD rIdx (ReadResult.chunk []) = ReadResult.chunk [] :=
        getD_of_drop_nil (by simpa using hreads) _
      refine ⟨⟨TStatus.success, 0, st, lastHint, [Event.read 0], []⟩, ?_, rfl, rfl, hout⟩
      simp only [readLoop, hg]
      rfl
    | cons c cs =>
      have hg : env.reads.getD rIdx (ReadResult.chunk []) = ReadResult.chunk c :=
        getD_of_drop_cons (by simpa using hreads) _
      have hcne : c ≠ [] := hne c (List.mem_cons_self _ _)
      have hclen : ¬c.length = 0 := fun h0 => hcne (List.length_eq_zero.mp h0)
      simp only [specDecode] at hspec
      split at hspec
      · exact absurd hspec (by simp)
      · exact absurd hspec (by simp)
      · rename_i st1 out1 hdr
        split at hspec
        · exact absurd hspec (by simp)
        · exact absurd hspec (by simp)
        · rename_i st2 out2 hdec
          simp only [Option.some.injEq, SpecOut.ok.injEq] at hspec
          obtain ⟨hst2, hout⟩ := hspec
          rcases drain_spec_eq env hw n st c 0 wIdx lastHint with ⟨hdn, hsn⟩ |
            ⟨d, hd, hcase⟩
          · rw [hdr] at hsn
            simp at hsn
          · rcases hcase with ⟨hab, hs⟩ | ⟨hab, hs⟩
            · rw [hdr] at hs
              simp only [Option.some.injEq, SpecOut.ok.injEq] at hs
              obtain ⟨hdst, hddest⟩ := hs
              have hr2 : env.reads.drop rIdx =
                  ReadResult.chunk c :: cs.map ReadResult.chunk := by
                simpa using hreads
              have hreads' : env.reads.drop (rIdx + 1) = cs.map ReadResult.chunk :=
                drop_succ_of_drop_cons hr2
              have hne' : ∀ x ∈ cs, x ≠ [] := fun x hx => hne x (List.mem_cons_of_mem _ hx)
              have hdec' : specDecode env.step env.outSize n d.st cs =
                  some (SpecOut.ok stF out2) := by
                rw [← hdst, hdec, hst2]
              obtain ⟨l', hl', hrc', hstat', hdest'⟩ :=
                ih cs d.st (rIdx + 1) d.wIdx d.lastHint stF out2 hreads' hne' hdec'
              refine ⟨⟨l'.status, l'.rc, l'.st, l'.lastHint,
                Event.read c.length :: d.trace ++ l'.trace, d.dest ++ l'.dest⟩,
                ?_, hrc', hstat', ?_⟩
              · simp only [readLoop, hg]
                rw [if_neg hclen]
                simp only [hd, hab, hl']
              · show d.dest ++ l'.dest = out
                rw [hdest', ← hddest, hout]
            · rw [hdr] at hs
              simp at hs

/-- C8 (round-trip, refinement form): whenever the reference decode of the
codec — `specDecode`, modelled from the spec's codec contract — applied to
the chunked output of a compressor for some byte sequence `B` succeeds with
result `B`, the bridge run on a source delivering exactly those chunks and
a reliable destination succeeds (returns 0) and writes exactly `B` to the
destination. -/
theorem zstd_decompress_fd_roundtrip (env : Env σ) (fuel : Nat)
    (chunks : List Bytes) (B : Bytes) (stF : σ)
    (hreads : env.reads = chunks.map ReadResult.chunk)
    (hchunks : ∀ c ∈ chunks, c ≠ [])
    (hw : ∀ i n, env.writeRet i n = (n : Int))
    (hc : env.createOk = true) (hi : env.initError = false)
    (hmi : env.mallocInOk = true) (hmo : env.mallocOutOk = true)
    (hspec : specDecode env.step env.outSize fuel env.initState chunks =
      some (SpecOut.ok stF B)) :
    ∃ r, zstd_decompress_fd env fuel = some r ∧ r.rc = 0 ∧
      r.status = TStatus.success ∧ r.dest = B := by
  obtain ⟨l, hl, hrc, hst, hdest⟩ :=
    loop_spec env hw fuel chunks env.initState 0 0 0 stF B (by simpa using hreads)
      hchunks hspec
  refine ⟨⟨l.rc, l.status, l.trace, l.dest, ⟨1, 1, 1, 1, 1, 1⟩, l.lastHint⟩,
    ?_, hrc, hst, hdest⟩
  simp only [zstd_decompress_fd, hc, hi, hmi, hmo]
  rw [hl]
  rfl

/-- An identity-codec step used for concrete witnesses: each step consumes
as much input as fits in the output window and produces those same bytes,
returning 0 (frame complete so far). -/
def idStep : Unit → Bytes → Nat → StepResult Unit :=
  fun _ inp cap => ⟨false, 0, (inp.take cap).length, inp.take cap, ()⟩

/-- A fully reliable environment with an empty source. -/
def unitEnv : Env Unit :=
  { createOk := true, initError := false, inSize := 8, outSize := 8,
    mallocInOk := true, mallocOutOk := true, initState := (),
    step := idStep, reads := [], writeRet := fun _ n => (n : Int) }

/-- Reliable environment delivering one three-byte chunk. -/
def envRound : Env Unit := { unitEnv with reads := [ReadResult.chunk [1, 2, 3]] }

/-- Environment whose destination accepts 0 bytes on every write. -/
def envShortW : Env Unit :=
  { unitEnv with reads := [ReadResult.chunk [7]], writeRet := fun _ _ => 0 }

/-- Environment whose destination returns the error value -1 on every write. -/
def envNegW : Env Unit :=
  { unitEnv with reads := [ReadResult.chunk [7]], writeRet := fun _ _ => -1 }

/-- Environment whose source fails on the first read. -/
def envReadErr : Env Unit := { unitEnv with reads := [ReadResult.err] }

/-- Environment in which context creation fails. -/
def envNoCtx : Env Unit := { unitEnv with createOk := false }

/-- Environment in which stream initialization fails. -/
def envInitErr : Env Unit := { unitEnv with initError := true }

/-- Environment in which the input staging buffer allocation fails. -/
def envNoMem : Env Unit := { unitEnv with mallocInOk := false }

/-- Outcome of `zstd_decompress_fd unitEnv 1`. -/
def runEmpty : RunResult :=
  ⟨0, TStatus.success, [Event.read 0], [], ⟨1, 1, 1, 1, 1, 1⟩, 0⟩

/-- Outcome of `zstd_decompress_fd envShortW 3`. -/
def runShort : RunResult :=
  ⟨1, TStatus.shortWrite,
    [Event.read 1, Event.step 0 1 0 8 false 1 [7], Event.write [7] 0], [],
    ⟨1, 1, 1, 1, 1, 1⟩, 0⟩

/-- Outcome of `zstd_decompress_fd envNegW 3`. -/
def runNegW : RunResult :=
  ⟨1, TStatus.shortWrite,
    [Event.read 1, Event.step 0 1 0 8 false 1 [7], Event.write [7] (-1)], [],
    ⟨1, 1, 1, 1, 1, 1⟩, 0⟩

/-- Outcome of `zstd_decompress_fd envReadErr 1`. -/
def runReadErr : RunResult :=
  ⟨1, TStatus.readError, [Event.read (-1)], [], ⟨1, 1, 1, 1, 1, 1⟩, 0⟩

theorem zstd_decompress_fd_resource_balance_witness :
    runEmpty.acct.ctxFreed = runEmpty.acct.ctxCreated ∧
    runEmpty.acct.inFreed = runEmpty.acct.inAlloc ∧
    runEmpty.acct.outFreed = runEmpty.acct.outAlloc ∧
    runEmpty.acct.ctxCreated ≤ 1 ∧ runEmpty.acct.inAlloc ≤ 1 ∧
    runEmpty.acct.outAlloc ≤ 1 ∧
    (unitEnv.createOk = true → runEmpty.acct.ctxCreated = 1) :=
  zstd_decompress_fd_resource_balance unitEnv 1 runEmpty rfl

theorem zstd_decompress_fd_rc_boundary_witness :
    ((runEmpty.rc = 0 ↔ runEmpty.status = TStatus.success) ∧
      (runEmpty.rc = 0 ∨ runEmpty.rc = 1)) ∧
    ((runShort.rc = 0 ↔ runShort.status = TStatus.success) ∧
      (runShort.rc = 0 ∨ runShort.rc = 1)) :=
  ⟨zstd_decompress_fd_rc_boundary unitEnv 1 runEmpty rfl,
   zstd_decompress_fd_rc_boundary envShortW 3 runShort rfl⟩

theorem zstd_decompress_fd_short_write_aborts_witness :
    runShort.rc = 1 ∧ runShort.status = TStatus.shortWrite :=
  (zstd_decompress_fd_short_write_aborts envShortW 3 runShort rfl).2 [7] 0
    (by decide) (by decide)

theorem zstd_decompress_fd_write_error_aborts_witness :
    runNegW.rc = 1 ∧ runNegW.status = TStatus.shortWrite :=
  (zstd_decompress_fd_write_error_aborts envNegW 3 runNegW rfl).2 [7] (-1)
    (by decide) (by decide)

theorem zstd_decompress_fd_read_semantics_witness :
    (runEmpty.trace.getLast? = some (Event.read 0) ∧ runEmpty.rc = 0) ∧
    (runEmpty.status = TStatus.success ∧ runEmpty.rc = 0) ∧
    (runReadErr.status = TStatus.readError ∧ runReadErr.rc = 1 ∧
      runReadErr.trace.getLast? = some (Event.read (-1))) ∧
    ReadThenStep envShortW.outSize runShort.trace :=
  ⟨(zstd_decompress_fd_read_semantics unitEnv 1 runEmpty rfl).1 rfl,
   (zstd_decompress_fd_read_semantics unitEnv 1 runEmpty rfl).2.1 (by decide),
   (zstd_decompress_fd_read_semantics envReadErr 1 runReadErr rfl).2.2.1 (-1)
     (by decide) (by decide),
   (zstd_decompress_fd_read_semantics envShortW 3 runShort rfl).2.2.2⟩

theorem zstd_decompress_fd_setup_failures_witness :
    zstd_decompress_fd envNoCtx 1 =
      some ⟨1, TStatus.contextCreationFailed, [], [], ⟨0, 0, 0, 0, 0, 0⟩, 0⟩ ∧
    zstd_decompress_fd envInitErr 1 =
      some ⟨1, TStatus.initFailed, [], [], ⟨1, 1, 0, 0, 0, 0⟩, 0⟩ ∧
    ∃ r, zstd_decompress_fd envNoMem 1 = some r ∧ r.rc = 1 ∧
      r.status = TStatus.allocationFailed ∧ r.dest = [] ∧ r.trace = [] ∧
      r.acct.ctxCreated = 1 ∧ r.acct.ctxFreed = 1 ∧
      r.acct.inFreed = r.acct.inAlloc ∧ r.acct.outFreed = r.acct.outAlloc :=
  ⟨(zstd_decompress_fd_setup_failures envNoCtx 1).1 rfl,
   (zstd_decompress_fd_setup_failures envInitErr 1).2.1 rfl rfl,
   (zstd_decompress_fd_setup_failures envNoMem 1).2.2 rfl rfl (Or.inl rfl)⟩

theorem zstd_decompress_fd_chunk_invariants_witness :
    (∀ e ∈ runShort.trace, StepFresh envShortW.outSize e) ∧
    FlushedNext runShort.trace ∧
    (∀ fuel' st chunk pos wIdx lastHint d,
      drainChunk envShortW fuel' st chunk pos wIdx lastHint = some d →
      (∀ e ∈ d.trace, e.isRead = false) ∧
      (pos ≤ chunk.length → d.abort = none → d.pos = chunk.length)) :=
  zstd_decompress_fd_chunk_invariants envShortW
    (fun _ inp cap => by simp only [envShortW, unitEnv, idStep, List.length_take]; omega)
    3 runShort rfl

theorem zstd_decompress_fd_roundtrip_witness :
    ∃ r, zstd_decompress_fd envRound 3 = some r ∧ r.rc = 0 ∧
      r.status = TStatus.success ∧ r.dest = [1, 2, 3] :=
  zstd_decompress_fd_roundtrip envRound 3 [[1, 2, 3]] [1, 2, 3] () rfl
    (by decide) (fun _ _ => rfl) rfl rfl rfl rfl rfl

end ArchiveBridge
